import Mathlib

/-!
Verification development for the occurrence-expansion and merge engine of
`eventtools/models.py` (django-eventtools).

Shallow embedding conventions:

* Datetimes are modelled as `Int` seconds; dates (Python `datetime.date`) as
  `Int` day numbers, so the datetime at midnight of day `d` is `d * 86400`
  and "end of day" (23:59:59) is `d * 86400 + 86399`.
* Timezone handling (`django.utils.timezone`) is modelled by an environment
  `Env` holding `aware` (the effect of `default_aware` on a naive value:
  attach the default zone, returning the instant) and `naive` (the effect of
  `default_naive` on an aware value: the local wall-clock reading).  When
  `settings.USE_TZ` is disabled both are the identity (`envOff`).  Stored
  record fields and all filter comparisons live in the "aware" domain;
  values handed to the rrule library live in the "naive" domain, exactly as
  in the source (`default_naive` before `.between`, `default_aware` after).
* `max_future_date()` (January 1 of the current year plus 10) depends on the
  wall clock, so its value is carried as the `maxFuture` field of `Env`.
* The external recurrence-rule library (dateutil) is a black box per the
  spec; `self.get_repeater().between(a, b, inc=True)` is modelled by a
  function `gr : OccRecord → Int → Int → List Int` passed explicitly (this
  also models the documented per-subclass override of `get_repeater`).
  `periodicBetween` gives the concrete behaviour of fixed-period rules
  (RRULE:FREQ=DAILY is exactly +86400 s and FREQ=WEEKLY exactly +604800 s in
  naive wall-clock arithmetic).
* Querysets are lists of records; Django field lookups on `NULL` columns are
  false, matching SQL semantics.  `.distinct()` on these single-table
  filters is a row-level no-op and is not modelled.
-/

/-- `REPEAT_MAX = 200`, the default safety cap of `all_occurrences`. -/
def REPEAT_MAX : Nat := 200

/-- Process-wide environment: the timezone normalisation primitives of
`default_aware` / `default_naive` and the value of `max_future_date()`. -/
structure Env where
  aware : Int → Int
  naive : Int → Int
  maxFuture : Int

/-- The environment with `settings.USE_TZ` disabled: `default_aware` and
`default_naive` are both the identity.  `mf` is the value of
`max_future_date()`. -/
def envOff (mf : Int) : Env :=
  { aware := id, naive := id, maxFuture := mf }

/-- A date-or-datetime argument, as accepted by `as_datetime` and the
`from_date` / `to_date` parameters.  `dt` values are taken to be already in
the aware domain (for naive input with tz support on, `default_aware` would
first attach the default zone). -/
inductive DTArg where
  | date : Int → DTArg
  | dt : Int → DTArg
deriving DecidableEq, Repr

/-- `as_datetime(d, end)`: a bare date becomes the datetime at 00:00:00, or
23:59:59 when `end` is true, run through `default_aware`; a datetime passes
through unchanged. -/
def as_datetime (env : Env) (d : DTArg) (isEnd : Bool) : Int :=
  match d with
  | .date n => env.aware (n * 86400 + (if isEnd then 86399 else 0))
  | .dt t => t

/-- One occurrence record (`BaseOccurrence` fields).  `start`/`end_` are
aware datetimes, `repeat_` the rule string (empty = does not repeat),
`repeat_until` a date (day number). -/
structure OccRecord where
  start : Option Int
  end_ : Option Int
  repeat_ : String
  repeat_until : Option Int
deriving DecidableEq, Repr

/-- An emitted occurrence `(start, end, occurrence_data)`; the payload
`occurrence_data` is the record itself. -/
abbrev Occurrence := Int × Option Int × OccRecord

/-- The occurrence starts of a fixed-period rule anchored at `dtstart`,
restricted to the inclusive window `[a, b]`, in ascending order: the
behaviour of dateutil's `rruleset.between(a, b, inc=True)` for
`RRULE:FREQ=DAILY` (`p = 86400`) and `RRULE:FREQ=WEEKLY` (`p = 604800`)
on naive datetimes. -/
def periodicBetween (dtstart p a b : Int) : List Int :=
  if 0 < p then
    ((List.range ((b - dtstart).toNat / p.toNat + 1)).map
        (fun k : Nat => dtstart + p * (k : Int))).filter
      (fun s => decide (a ≤ s) && decide (s ≤ b))
  else []

/-- The duration `delta = (self.end - self.start) if self.end else timedelta(0)`. -/
def rdelta (end_ : Option Int) (start : Int) : Int :=
  match end_ with
  | some e => e - start
  | none => 0

/-- Lower bound handed to the repeater (lines 393-407): start from the first
occurrence at the earliest (`max(from_date, start)` with absent `from_date`
as minus infinity), then subtract `delta` so an occurrence whose start
precedes the window but whose end falls inside it is still found. -/
def repeatLower (start : Int) (fd : Option Int) (delta : Int) : Int :=
  (match fd with
   | none => start
   | some f => if f < start then start else f) - delta

/-- Upper bound handed to the repeater (lines 397-403): the `repeat_until`
end of day when that is set and tighter than `to_date`, else `to_date`,
else `default_aware(max_future_date())`. -/
def repeatUpper (env : Env) (self : OccRecord) (td : Option Int) : Int :=
  match self.repeat_until, td with
  | some ru, none => env.aware (ru * 86400 + 86399)
  | some ru, some t =>
      if env.aware (ru * 86400 + 86399) < t then env.aware (ru * 86400 + 86399) else t
  | none, some t => t
  | none, none => env.aware env.maxFuture

/-- `BaseOccurrence.all_occurrences(from_date, to_date, limit)` (lines
374-421).  Empty when `start` is absent.  Non-repeating branch: yield the
single `(start, end, occurrence_data)` iff
`(not from_date or start >= from_date or (end and end >= from_date)) and
(not to_date or start <= to_date)`.  Repeating branch: query the repeater
(`gr`) over `[repeatLower, repeatUpper]` converted to naive, stop after
`limit` results, re-zone each start and emit `(occ_start, occ_start + delta,
occurrence_data)`. -/
def all_occurrences (env : Env) (gr : OccRecord → Int → Int → List Int)
    (self : OccRecord) (from_date : Option DTArg := none)
    (to_date : Option DTArg := none) (limit : Nat := REPEAT_MAX) :
    List Occurrence :=
  match self.start with
  | none => []
  | some start =>
    let fd := from_date.map (fun d => as_datetime env d false)
    let td := to_date.map (fun d => as_datetime env d true)
    if self.repeat_ = "" then
      if ((match fd with
           | none => true
           | some f =>
               decide (f ≤ start) ||
                 (match self.end_ with
                  | some e => decide (f ≤ e)
                  | none => false)) &&
          (match td with
           | none => true
           | some t => decide (start ≤ t)))
      then [(start, self.end_, self)]
      else []
    else
      let delta := rdelta self.end_ start
      ((gr self (env.naive (repeatLower start fd delta))
          (env.naive (repeatUpper env self td))).take limit).map
        (fun occ_start =>
          (env.aware occ_start, some (env.aware occ_start + delta), self))

/-- `get_repeater` for a record whose rule is `RRULE:FREQ=DAILY`, under
disabled tz support (`default_naive(self.start) = self.start`): dateutil
expands it as `start + 86400 k`. -/
def dailyRepeater (r : OccRecord) : Int → Int → List Int :=
  fun a b =>
    match r.start with
    | some s => periodicBetween s 86400 a b
    | none => []

/-- Whether `Q(start__lte=v)` holds of a record (SQL `NULL` compares false). -/
def startLteB (r : OccRecord) (v : Int) : Bool :=
  match r.start with
  | some s => decide (s ≤ v)
  | none => false

/-- `filter_from(qs, from_date)` (lines 131-140): retain records with
`(end is not null and end >= from_date) or start >= from_date or
(repeat != '' and (repeat_until >= from_date or repeat_until is null))`.
`repeat_until` is a `DateField`; Django prepares the datetime operand by
taking the date of its local reading, so that comparison is
`repeat_until >= date(default_naive(from_date))`. -/
def filter_from (env : Env) (qs : List OccRecord) (from_date : DTArg) :
    List OccRecord :=
  let fd := as_datetime env from_date false
  qs.filter (fun r =>
    (match r.end_ with
     | some e => decide (fd ≤ e)
     | none => false) ||
    (match r.start with
     | some s => decide (fd ≤ s)
     | none => false) ||
    (decide (r.repeat_ ≠ "") &&
      (match r.repeat_until with
       | some ru => decide (Int.fdiv (env.naive fd) 86400 ≤ ru)
       | none => true)))

/-- `filter_invalid(approx_qs, from_date, to_date)` (lines 117-128): drop
every record whose `next_occurrence(from_date, to_date)` is `None`, i.e.
whose `all_occurrences(from_date, to_date)` (default limit) is empty;
`from_date` is always truthy on this path. -/
def filter_invalid (env : Env) (gr : OccRecord → Int → Int → List Int)
    (qs : List OccRecord) (from_date : DTArg) (to_date : Option DTArg) :
    List OccRecord :=
  qs.filter (fun r =>
    !(all_occurrences env gr r (some from_date) to_date).isEmpty)

/-- `OccurrenceQuerySet.for_period(from_date, to_date, exact)` (lines
284-309): accurate `to_date` filtering by `start <= as_datetime(to_date,
True)`; then, only when `from_date` is given, the approximate `filter_from`
winnowing, followed by `filter_invalid` when `exact` is requested (fed the
already-converted `to_date`). -/
def for_period (env : Env) (gr : OccRecord → Int → Int → List Int)
    (qs : List OccRecord) (from_date to_date : Option DTArg)
    (exact : Bool) : List OccRecord :=
  let q1 := match to_date with
    | none => qs
    | some t => qs.filter (fun r => startLteB r (as_datetime env t true))
  match from_date with
  | none => q1
  | some f =>
    let q2 := filter_from env q1 f
    if exact then
      filter_invalid env gr q2 f
        (to_date.map (fun t => DTArg.dt (as_datetime env t true)))
    else q2

/-- One merge group of `combine_occurrences`: the buffered head (`'next'`)
and the rest of its generator.  The element type is kept abstract in the
payload position; only the first component (the start) is compared. -/
abbrev MergeGroup (α : Type) := (Int × α) × List (Int × α)

/-- The head-selection loop of `combine_occurrences` (lines 100-103): scan
the groups keeping the first one whose head start is strictly smaller than
the current best, i.e. pick the leftmost group with minimal head start.
Returns that group together with the groups before and after it. -/
def selectMin {α : Type} :
    List (MergeGroup α) → Option (List (MergeGroup α) × MergeGroup α × List (MergeGroup α))
  | [] => none
  | g :: gs =>
    match selectMin gs with
    | none => some ([], g, gs)
    | some (A, m, B) =>
        if m.1.1 < g.1.1 then some (g :: A, m, B) else some ([], g, gs)

/-- Total number of elements buffered in a merge state (each group holds its
head plus the rest of its generator); used as termination fuel. -/
def gsize {α : Type} (grouped : List (MergeGroup α)) : Nat :=
  (grouped.map (fun g => g.2.length + 1)).sum

/-- The merge loop of `combine_occurrences` (lines 93-114), with an explicit
fuel bound (each iteration consumes exactly one buffered element, so any
fuel `≥ gsize grouped` is sufficient).  While the limit is not exhausted and
groups remain: yield the head of the leftmost minimal group, then refill
that group in place from its generator, dropping it when the generator is
exhausted. -/
def combineFuel {α : Type} :
    Nat → List (MergeGroup α) → Option Nat → List (Int × α)
  | 0, _, _ => []
  | fuel + 1, grouped, limit =>
    match selectMin grouped with
    | none => []
    | some (A, m, B) =>
      if limit = some 0 then []
      else
        m.1 ::
          combineFuel fuel
            (match m.2 with
             | [] => A ++ B
             | h :: t => A ++ ((h, t) : MergeGroup α) :: B)
            (limit.map (fun n => n - 1))

/-- Seed the merge state (lines 84-91): pull the first item of each
generator, dropping generators that are already exhausted. -/
def seedGroups {α : Type} (gens : List (List (Int × α))) : List (MergeGroup α) :=
  gens.filterMap (fun g =>
    match g with
    | [] => none
    | h :: t => some ((h, t) : MergeGroup α))

/-- `combine_occurrences(generators, limit)` (lines 78-114): merge the
occurrences of the given (already-materialised) generators in date order,
comparing only start values, yielding at most `limit` items when a limit is
given. -/
def combine_occurrences {α : Type} (gens : List (List (Int × α)))
    (limit : Option Nat) : List (Int × α) :=
  combineFuel (gsize (seedGroups gens)) (seedGroups gens) limit

/-- A value of the `repeat` column as seen by `migrate_integer_repeat`:
either a legacy integer rule code or a rule string.  A stored string never
compares equal to an integer code. -/
inductive RVal where
  | int : Int → RVal
  | str : String → RVal
deriving DecidableEq, Repr

/-- dateutil's `rrule.YEARLY`. -/
def rruleYEARLY : Int := 0
/-- dateutil's `rrule.MONTHLY`. -/
def rruleMONTHLY : Int := 1
/-- dateutil's `rrule.WEEKLY`. -/
def rruleWEEKLY : Int := 2
/-- dateutil's `rrule.DAILY`. -/
def rruleDAILY : Int := 3

/-- The `Case`/`When` expression of
`OccurrenceManager.migrate_integer_repeat` (lines 315-326), applied to one
record's `repeat` value: legacy integer codes map to the canonical
`RRULE:FREQ=<FREQ>` strings, everything else to the empty string. -/
def migrate_integer_repeat (v : RVal) : RVal :=
  if v = .int rruleYEARLY then .str "RRULE:FREQ=YEARLY"
  else if v = .int rruleMONTHLY then .str "RRULE:FREQ=MONTHLY"
  else if v = .int rruleWEEKLY then .str "RRULE:FREQ=WEEKLY"
  else if v = .int rruleDAILY then .str "RRULE:FREQ=DAILY"
  else .str ""

/-- The bulk `update` of `migrate_integer_repeat` over a queryset. -/
def migrate_integer_repeat_all (qs : List RVal) : List RVal :=
  qs.map migrate_integer_repeat

/-- A repeating record whose final occurrence is in progress shortly after
its `repeat_until` day: start day 0 10:00, end day 1 09:00 (23 h duration),
daily, repeating until day 9.  Its last occurrence runs from day 9 10:00 to
day 10 09:00. -/
def rStraddle : OccRecord :=
  { start := some 36000, end_ := some 118800,
    repeat_ := "RRULE:FREQ=DAILY", repeat_until := some 9 }

/-- A plain non-repeating record starting at t = 100. -/
def rPlain : OccRecord :=
  { start := some 100, end_ := none, repeat_ := "", repeat_until := none }

/-- A record repeating DAILY with no `repeat_until`, anchored at t = 0. -/
def rDaily : OccRecord :=
  { start := some 0, end_ := none,
    repeat_ := "RRULE:FREQ=DAILY", repeat_until := none }

/-- A daily record with an end time, used to exercise the repeating window:
start 00:00 + 0 s, end 01:00, daily, repeating until day 2. -/
def rShort : OccRecord :=
  { start := some 0, end_ := some 3600,
    repeat_ := "RRULE:FREQ=DAILY", repeat_until := some 2 }

/-- A timezone with a "fall back" transition: instants before T = 1209600
carry offset +3600 (local reading = instant + 3600), instants from T on
carry offset 0.  `aware` is the matching local-to-instant conversion, so
`naive (aware l) = l` for every local reading `l`. -/
def envDST : Env :=
  { aware := fun l => if l < 1213200 then l - 3600 else l,
    naive := fun t => if t < 1209600 then t + 3600 else t,
    maxFuture := 0 }

/-- A WEEKLY record under `envDST`, stored aware: its instant 32400 reads as
local wall clock 36000 (10:00) before the transition. -/
def rWeekly : OccRecord :=
  { start := some 32400, end_ := none,
    repeat_ := "RRULE:FREQ=WEEKLY", repeat_until := none }

/-- `get_repeater` for `rWeekly` under `envDST`: dateutil's WEEKLY rule with
`dtstart = default_naive(self.start) = 36000` adds exactly 604800 s per step
in naive wall-clock time. -/
def weeklyRepeaterDST : OccRecord → Int → Int → List Int :=
  fun _ a b => periodicBetween 36000 604800 a b

/-! ### Helper lemmas -/


/-! ### Helper lemmas -/

theorem mem_periodicBetween {p : Int} (hp : 0 < p) (dtstart a b x : Int) :
    x ∈ periodicBetween dtstart p a b ↔
      (∃ k : Nat, x = dtstart + p * k) ∧ a ≤ x ∧ x ≤ b := by
  unfold periodicBetween
  rw [if_pos hp]
  simp only [List.mem_filter, List.mem_map, List.mem_range, Bool.and_eq_true,
    decide_eq_true_eq]
  constructor
  · rintro ⟨⟨k, hk, hfk⟩, h1, h2⟩
    exact ⟨⟨k, hfk.symm⟩, h1, h2⟩
  · rintro ⟨⟨k, hxk⟩, h1, h2⟩
    subst hxk
    refine ⟨⟨k, ?_, rfl⟩, h1, h2⟩
    have hpk : p * (k : Int) ≤ b - dtstart := by omega
    have hp0 : (0 : Int) ≤ p * (k : Int) := by positivity
    have hcast : (p.toNat : Int) = p := Int.toNat_of_nonneg hp.le
    have hmul : p.toNat * k ≤ (b - dtstart).toNat := by
      have h2' : ((p.toNat * k : Nat) : Int) ≤ (((b - dtstart).toNat : Nat) : Int) := by
        push_cast
        rw [hcast]
        omega
      exact_mod_cast h2'
    have hq : 0 < p.toNat := by omega
    have hk : k ≤ (b - dtstart).toNat / p.toNat :=
      (Nat.le_div_iff_mul_le hq).mpr (by rw [Nat.mul_comm]; exact hmul)
    omega

theorem selectMin_eq_none {α : Type} (l : List (MergeGroup α)) :
    selectMin l = none ↔ l = [] := by
  cases l with
  | nil => simp [selectMin]
  | cons g gs =>
    simp only [selectMin]
    cases hgs : selectMin gs with
    | none => simp
    | some x =>
      obtain ⟨A, m, B⟩ := x
      simp only
      split <;> simp

theorem selectMin_decomp {α : Type} {l A B : List (MergeGroup α)}
    {m : MergeGroup α} (h : selectMin l = some (A, m, B)) :
    l = A ++ m :: B := by
  induction l generalizing A m B with
  | nil => simp [selectMin] at h
  | cons g gs ih =>
    simp only [selectMin] at h
    cases hgs : selectMin gs with
    | none =>
      rw [hgs] at h
      simp only [Option.some.injEq, Prod.mk.injEq] at h
      obtain ⟨hA, hm, hB⟩ := h
      subst hA; subst hm; subst hB
      rfl
    | some x =>
      obtain ⟨A', m', B'⟩ := x
      rw [hgs] at h
      simp only at h
      split at h
      · simp only [Option.some.injEq, Prod.mk.injEq] at h
        obtain ⟨hA, hm, hB⟩ := h
        subst hA; subst hm; subst hB
        rw [List.cons_append]
        rw [ih hgs]
      · simp only [Option.some.injEq, Prod.mk.injEq] at h
        obtain ⟨hA, hm, hB⟩ := h
        subst hA; subst hm; subst hB
        rfl

theorem selectMin_le {α : Type} {l A B : List (MergeGroup α)}
    {m : MergeGroup α} (h : selectMin l = some (A, m, B)) :
    ∀ g ∈ l, m.1.1 ≤ g.1.1 := by
  induction l generalizing A m B with
  | nil => simp [selectMin] at h
  | cons g gs ih =>
    simp only [selectMin] at h
    cases hgs : selectMin gs with
    | none =>
      rw [hgs] at h
      simp only [Option.some.injEq, Prod.mk.injEq] at h
      obtain ⟨hA, hm, hB⟩ := h
      subst hm
      have hnil : gs = [] := (selectMin_eq_none gs).mp hgs
      subst hnil
      intro g' hg'
      rw [List.mem_singleton] at hg'
      subst hg'
      exact le_refl _
    | some x =>
      obtain ⟨A', m', B'⟩ := x
      rw [hgs] at h
      simp only at h
      split at h
      · rename_i hlt
        simp only [Option.some.injEq, Prod.mk.injEq] at h
        obtain ⟨hA, hm, hB⟩ := h
        subst hm
        intro g' hg'
        rcases List.mem_cons.mp hg' with hgg | hmem
        · subst hgg; exact le_of_lt hlt
        · exact ih hgs g' hmem
      · rename_i hnlt
        simp only [Option.some.injEq, Prod.mk.injEq] at h
        obtain ⟨hA, hm, hB⟩ := h
        subst hm
        intro g' hg'
        rcases List.mem_cons.mp hg' with hgg | hmem
        · subst hgg; exact le_refl _
        · exact le_trans (not_lt.mp hnlt) (ih hgs g' hmem)

theorem selectMin_before_lt {α : Type} {l A B : List (MergeGroup α)}
    {m : MergeGroup α} (h : selectMin l = some (A, m, B)) :
    ∀ g ∈ A, m.1.1 < g.1.1 := by
  induction l generalizing A m B with
  | nil => simp [selectMin] at h
  | cons g gs ih =>
    simp only [selectMin] at h
    cases hgs : selectMin gs with
    | none =>
      rw [hgs] at h
      simp only [Option.some.injEq, Prod.mk.injEq] at h
      obtain ⟨hA, hm, hB⟩ := h
      subst hA
      intro g' hg'
      simp at hg'
    | some x =>
      obtain ⟨A', m', B'⟩ := x
      rw [hgs] at h
      simp only at h
      split at h
      · rename_i hlt
        simp only [Option.some.injEq, Prod.mk.injEq] at h
        obtain ⟨hA, hm, hB⟩ := h
        subst hA; subst hm
        intro g' hg'
        rcases List.mem_cons.mp hg' with hgg | hmem
        · subst hgg; exact hlt
        · exact ih hgs g' hmem
      · simp only [Option.some.injEq, Prod.mk.injEq] at h
        obtain ⟨hA, hm, hB⟩ := h
        subst hA
        intro g' hg'
        simp at hg'

theorem gsize_append {α : Type} (l1 l2 : List (MergeGroup α)) :
    gsize (l1 ++ l2) = gsize l1 + gsize l2 := by
  simp [gsize, List.map_append, List.sum_append]

theorem gsize_cons {α : Type} (g : MergeGroup α) (l : List (MergeGroup α)) :
    gsize (g :: l) = g.2.length + 1 + gsize l := by
  simp [gsize]

theorem gsize_eq_zero {α : Type} {l : List (MergeGroup α)} (h : gsize l = 0) :
    l = [] := by
  cases l with
  | nil => rfl
  | cons g gs => rw [gsize_cons] at h; omega

theorem gsize_step_lt {α : Type} {l A B : List (MergeGroup α)}
    {m : MergeGroup α} (h : selectMin l = some (A, m, B)) :
    gsize (match m.2 with
           | [] => A ++ B
           | h' :: t => A ++ ((h', t) : MergeGroup α) :: B) < gsize l := by
  rw [selectMin_decomp h]
  cases hm : m.2 with
  | nil =>
    rw [gsize_append, gsize_append, gsize_cons, hm]
    simp
  | cons h' t =>
    rw [gsize_append, gsize_append, gsize_cons, gsize_cons, hm]
    simp

theorem combineFuel_take {α : Type} (fuel : Nat) :
    ∀ (grouped : List (MergeGroup α)) (n : Nat),
      combineFuel fuel grouped (some n) =
        (combineFuel fuel grouped none).take n := by
  induction fuel with
  | zero => intro grouped n; simp [combineFuel]
  | succ fuel ih =>
    intro grouped n
    simp only [combineFuel]
    cases hsel : selectMin grouped with
    | none => simp
    | some x =>
      obtain ⟨A, m, B⟩ := x
      cases n with
      | zero => simp
      | succ n =>
        dsimp only
        rw [if_neg (show ¬(some (n + 1) = some (0 : Nat)) by simp),
          if_neg (show ¬((none : Option Nat) = some 0) by simp)]
        simp only [Option.map_some', Option.map_none', Nat.add_sub_cancel,
          List.take_succ_cons]
        rw [ih]

theorem combineFuel_perm {α : Type} (fuel : Nat) :
    ∀ grouped : List (MergeGroup α), gsize grouped ≤ fuel →
      (combineFuel fuel grouped none).Perm
        ((grouped.map (fun g => g.1 :: g.2)).flatten) := by
  induction fuel with
  | zero =>
    intro grouped hf
    have hnil : grouped = [] := gsize_eq_zero (Nat.le_zero.mp hf)
    subst hnil
    simp [combineFuel]
  | succ fuel ih =>
    intro grouped hf
    simp only [combineFuel]
    cases hsel : selectMin grouped with
    | none =>
      rw [(selectMin_eq_none _).mp hsel]
      simp
    | some x =>
      obtain ⟨A, m, B⟩ := x
      dsimp only
      rw [if_neg (show ¬((none : Option Nat) = some 0) by simp)]
      have hdec := selectMin_decomp hsel
      have hlt := gsize_step_lt hsel
      rw [hdec]
      cases hm : m.2 with
      | nil =>
        rw [hm] at hlt
        simp only at hlt
        have ihp := ih (A ++ B) (by omega)
        simp only [List.map_append, List.map_cons, List.flatten_append,
          List.flatten_cons, hm, List.nil_append, List.cons_append,
          Option.map_none'] at ihp ⊢
        exact (List.Perm.cons m.1 ihp).trans List.perm_middle.symm
      | cons h' t =>
        rw [hm] at hlt
        simp only at hlt
        have ihp := ih (A ++ (h', t) :: B) (by omega)
        simp only [List.map_append, List.map_cons, List.flatten_append,
          List.flatten_cons, hm, List.nil_append, List.cons_append,
          Option.map_none'] at ihp ⊢
        exact (List.Perm.cons m.1 ihp).trans List.perm_middle.symm

theorem combineFuel_mem_none {α : Type} {fuel : Nat}
    {grouped : List (MergeGroup α)} {limit : Option Nat} {x : Int × α}
    (hx : x ∈ combineFuel fuel grouped limit) :
    x ∈ combineFuel fuel grouped none := by
  cases limit with
  | none => exact hx
  | some n =>
    rw [combineFuel_take] at hx
    exact List.take_subset _ _ hx

theorem combineFuel_pairwise {α : Type} (fuel : Nat) :
    ∀ (grouped : List (MergeGroup α)) (limit : Option Nat),
      gsize grouped ≤ fuel →
      (∀ g ∈ grouped,
        (g.1 :: g.2).Pairwise (fun x y : Int × α => x.1 ≤ y.1)) →
      (combineFuel fuel grouped limit).Pairwise
        (fun x y : Int × α => x.1 ≤ y.1) := by
  induction fuel with
  | zero => intro grouped limit _ _; simp [combineFuel]
  | succ fuel ih =>
    intro grouped limit hf hg
    simp only [combineFuel]
    cases hsel : selectMin grouped with
    | none => simp
    | some x =>
      obtain ⟨A, m, B⟩ := x
      dsimp only
      by_cases hl : limit = some 0
      · rw [if_pos hl]; simp
      · rw [if_neg hl]
        have hdec := selectMin_decomp hsel
        have hmin := selectMin_le hsel
        have hmP : (m.1 :: m.2).Pairwise (fun x y : Int × α => x.1 ≤ y.1) := by
          apply hg
          rw [hdec]
          exact List.mem_append_right _ (List.mem_cons_self _ _)
        set st := (match m.2 with
             | [] => A ++ B
             | h' :: t => A ++ ((h', t) : MergeGroup α) :: B) with hst
        have hsize : gsize st ≤ fuel := by
          have hlt := gsize_step_lt hsel
          rw [← hst] at hlt
          omega
        have hkey : ∀ g ∈ st,
            ((g.1 :: g.2).Pairwise (fun x y : Int × α => x.1 ≤ y.1) ∧
              ∀ x ∈ (g.1 :: g.2), m.1.1 ≤ x.1) := by
          intro g hgmem
          have hmem' : g ∈ grouped ∨ (g.1 :: g.2) = m.2 := by
            rw [hst] at hgmem
            cases hm : m.2 with
            | nil =>
              rw [hm] at hgmem
              dsimp only at hgmem
              left
              rw [hdec]
              rcases List.mem_append.mp hgmem with h | h
              · exact List.mem_append_left _ h
              · exact List.mem_append_right _ (List.mem_cons_of_mem _ h)
            | cons h' t =>
              rw [hm] at hgmem
              dsimp only at hgmem
              rcases List.mem_append.mp hgmem with h | h
              · exact Or.inl (by rw [hdec]; exact List.mem_append_left _ h)
              · rcases List.mem_cons.mp h with rfl | h
                · right; rfl
                · exact Or.inl (by
                    rw [hdec]
                    exact List.mem_append_right _ (List.mem_cons_of_mem _ h))
          rcases hmem' with hmem' | heq
          · have hgP := hg g hmem'
            have hmg : m.1.1 ≤ g.1.1 := hmin g hmem'
            refine ⟨hgP, ?_⟩
            intro x hx
            rcases List.mem_cons.mp hx with rfl | hx
            · exact hmg
            · exact le_trans hmg ((List.pairwise_cons.mp hgP).1 x hx)
          · rw [heq]
            exact ⟨(List.pairwise_cons.mp hmP).2, (List.pairwise_cons.mp hmP).1⟩
        refine List.Pairwise.cons ?_ (ih st _ hsize (fun g hgm => (hkey g hgm).1))
        intro x hx
        have hx' := combineFuel_mem_none hx
        have hperm := combineFuel_perm fuel st hsize
        have hxj := hperm.mem_iff.mp hx'
        rw [List.mem_flatten] at hxj
        obtain ⟨l, hl', hxl⟩ := hxj
        rw [List.mem_map] at hl'
        obtain ⟨g, hgmem, rfl⟩ := hl'
        exact (hkey g hgmem).2 x hxl

theorem combineFuel_head {α : Type} {fuel : Nat}
    {grouped A B : List (MergeGroup α)} {m : MergeGroup α}
    {limit : Option Nat} (hf : 1 ≤ fuel) (hl : limit ≠ some 0)
    (hsel : selectMin grouped = some (A, m, B)) :
    (combineFuel fuel grouped limit).head? = some m.1 := by
  cases fuel with
  | zero => omega
  | succ fuel =>
    simp only [combineFuel]
    rw [hsel]
    dsimp only
    rw [if_neg hl]
    rfl

theorem flatten_seedGroups {α : Type} (gens : List (List (Int × α))) :
    ((seedGroups gens).map (fun g => g.1 :: g.2)).flatten = gens.flatten := by
  induction gens with
  | nil => rfl
  | cons g gs ih =>
    cases g with
    | nil =>
      simp only [seedGroups, List.filterMap_cons] at ih ⊢
      simpa using ih
    | cons h t =>
      simp only [seedGroups, List.filterMap_cons] at ih ⊢
      simp only [List.map_cons, List.flatten_cons, List.cons_append, ih]

theorem gsize_pos_of_cons {α : Type} {g : MergeGroup α}
    {l : List (MergeGroup α)} : 1 ≤ gsize (g :: l) := by
  rw [gsize_cons]
  omega

/-! ### Claim theorems -/

/-- Claim C9: when `from_date` is absent, `for_period` ignores the `exact`
flag entirely: with `exact=True` it performs no expansion-based
re-validation and returns the same result as `exact=False` — the collection
filtered only by `start ≤ end-of-day(to_date)` when `to_date` is given, and
the whole collection when both bounds are absent. -/
theorem for_period_no_from_ignores_exact (env : Env)
    (gr : OccRecord → Int → Int → List Int) (qs : List OccRecord)
    (td : Option DTArg) (exact : Bool) :
    for_period env gr qs none td exact = for_period env gr qs none td false ∧
    for_period env gr qs none td exact =
      (match td with
       | none => qs
       | some t => qs.filter (fun r => startLteB r (as_datetime env t true))) := by
  constructor <;> rfl

/-- Claim C3: for a record with `start` present and empty `repeat`,
`all_occurrences(from_date, to_date)` yields exactly one occurrence
`(start, end, payload)` iff `(from_date absent ∨ start ≥ from_date ∨ (end
present ∧ end ≥ from_date)) ∧ (to_date absent ∨ start ≤ to_date)` (bounds
normalised by `as_datetime`, with end-of-day for `to_date`), and yields
nothing otherwise; equivalently, under the validated invariant `start ≤
end`, exactly one item iff the record's `[start, end]` interval intersects
the window. -/
theorem non_repeating_single_occurrence (env : Env)
    (gr : OccRecord → Int → Int → List Int) (r : OccRecord) (s0 : Int)
    (fd td : Option DTArg) (limit : Nat) (hs : r.start = some s0)
    (hrep : r.repeat_ = "") :
    (all_occurrences env gr r fd td limit =
      if ((match fd with
           | none => true
           | some f =>
               decide (as_datetime env f false ≤ s0) ||
                 (match r.end_ with
                  | some e => decide (as_datetime env f false ≤ e)
                  | none => false)) &&
          (match td with
           | none => true
           | some t => decide (s0 ≤ as_datetime env t true)))
      then [(s0, r.end_, r)] else []) ∧
    ((∀ e, r.end_ = some e → s0 ≤ e) →
      (all_occurrences env gr r fd td limit ≠ [] ↔
        ((match fd with
          | none => True
          | some f =>
              as_datetime env f false ≤
                (match r.end_ with | some e => e | none => s0)) ∧
         (match td with
          | none => True
          | some t => s0 ≤ as_datetime env t true)))) := by
  have h1 : all_occurrences env gr r fd td limit =
      if ((match fd with
           | none => true
           | some f =>
               decide (as_datetime env f false ≤ s0) ||
                 (match r.end_ with
                  | some e => decide (as_datetime env f false ≤ e)
                  | none => false)) &&
          (match td with
           | none => true
           | some t => decide (s0 ≤ as_datetime env t true)))
      then [(s0, r.end_, r)] else [] := by
    cases fd <;> cases td <;> simp [all_occurrences, hs, hrep]
  refine ⟨h1, fun hval => ?_⟩
  rw [h1]
  have hbool : ∀ (c : Bool) (x : Occurrence),
      ((if c then [x] else []) ≠ [] ↔ c = true) := by
    intro c x
    cases c <;> simp
  rw [hbool]
  rcases hend : r.end_ with _ | e
  · rcases fd with _ | f <;> rcases td with _ | t <;>
      simp only [hend, Bool.and_eq_true, Bool.or_eq_true, decide_eq_true_eq] <;>
      simp
  · have hse := hval e hend
    rcases fd with _ | f <;> rcases td with _ | t <;>
      simp only [hend, Bool.and_eq_true, Bool.or_eq_true, decide_eq_true_eq] <;>
      simp <;> omega

/-- Witness for C3: the record `rPlain` (start 100, no end, no repeat) with
window from 50, no upper bound, emits its single occurrence. -/
theorem non_repeating_single_occurrence_witness :
    all_occurrences (envOff 0) dailyRepeater rPlain (some (.dt 50)) none 200 =
      if ((match (some (DTArg.dt 50) : Option DTArg) with
           | none => true
           | some f =>
               decide (as_datetime (envOff 0) f false ≤ 100) ||
                 (match rPlain.end_ with
                  | some e => decide (as_datetime (envOff 0) f false ≤ e)
                  | none => false)) &&
          (match (none : Option DTArg) with
           | none => true
           | some t => decide ((100 : Int) ≤ as_datetime (envOff 0) t true)))
      then [((100 : Int), rPlain.end_, rPlain)] else [] :=
  (non_repeating_single_occurrence (envOff 0) dailyRepeater rPlain 100
    (some (.dt 50)) none 200 (by rfl) (by rfl)).1

/-- Claim C4: for a record with `start` present and non-empty `repeat`, the
occurrence starts emitted by `all_occurrences` are exactly the
rule-expansion starts lying in the inclusive window
`[max(from_date, start) - delta, U]` (the first `limit` of them), where
`delta = end - start` (zero when `end` is absent) and `U` is
`end-of-day(repeat_until)` when that is set and earlier than `to_date`,
else `to_date`, else the far-future sentinel `max_future_date()`; each
start `s` is emitted as `(s, s + delta, payload)`, so an occurrence whose
start precedes `from_date` but whose end reaches into the window is still
emitted.  The repeater hypothesis `hgr` says the black-box rule adapter
returns exactly the rule starts (`R`) within its inclusive bounds. -/
theorem repeating_window_exact (env : Env)
    (gr : OccRecord → Int → Int → List Int) (r : OccRecord) (s0 : Int)
    (fd td : Option DTArg) (limit : Nat) (R : Int → Prop)
    (hs : r.start = some s0) (hrep : r.repeat_ ≠ "")
    (hgr : ∀ a b x, x ∈ gr r a b ↔ R x ∧ a ≤ x ∧ x ≤ b)
    (hlim : (gr r
        (env.naive (repeatLower s0
          (fd.map (fun d => as_datetime env d false)) (rdelta r.end_ s0)))
        (env.naive (repeatUpper env r
          (td.map (fun d => as_datetime env d true))))).length ≤ limit) :
    (all_occurrences env gr r fd td limit =
      ((gr r (env.naive (repeatLower s0
            (fd.map (fun d => as_datetime env d false)) (rdelta r.end_ s0)))
          (env.naive (repeatUpper env r
            (td.map (fun d => as_datetime env d true))))).take limit).map
        (fun s => (env.aware s, some (env.aware s + rdelta r.end_ s0), r))) ∧
    (∀ f d : Int, repeatLower s0 (some f) d = max f s0 - d) ∧
    (∀ x en p, ((x, en, p) : Occurrence) ∈ all_occurrences env gr r fd td limit ↔
      ∃ s, R s ∧
        env.naive (repeatLower s0
          (fd.map (fun d => as_datetime env d false)) (rdelta r.end_ s0)) ≤ s ∧
        s ≤ env.naive (repeatUpper env r
          (td.map (fun d => as_datetime env d true))) ∧
        x = env.aware s ∧ en = some (env.aware s + rdelta r.end_ s0) ∧ p = r) := by
  have h1 : all_occurrences env gr r fd td limit =
      ((gr r (env.naive (repeatLower s0
            (fd.map (fun d => as_datetime env d false)) (rdelta r.end_ s0)))
          (env.naive (repeatUpper env r
            (td.map (fun d => as_datetime env d true))))).take limit).map
        (fun s => (env.aware s, some (env.aware s + rdelta r.end_ s0), r)) := by
    simp only [all_occurrences, hs]
    rw [if_neg hrep]
  refine ⟨h1, ?_, ?_⟩
  · intro f d
    simp only [repeatLower]
    rcases le_or_lt s0 f with h | h
    · rw [if_neg (not_lt.mpr h), max_eq_left h]
    · rw [if_pos h, max_eq_right h.le]
  · intro x en p
    rw [h1, List.take_of_length_le hlim, List.mem_map]
    constructor
    · rintro ⟨s, hsmem, heq⟩
      obtain ⟨hR, hle1, hle2⟩ := (hgr _ _ s).mp hsmem
      simp only [Prod.mk.injEq] at heq
      obtain ⟨hx, hen, hp⟩ := heq
      exact ⟨s, hR, hle1, hle2, hx.symm, hen.symm, hp.symm⟩
    · rintro ⟨s, hR, hle1, hle2, rfl, rfl, rfl⟩
      exact ⟨s, (hgr _ _ s).mpr ⟨hR, hle1, hle2⟩, rfl⟩

/-- Witness for C4: the daily record `rShort` (start 0, end 3600, until day
2) queried from t = 90000 emits exactly the in-window rule starts, shifted
window included. -/
theorem repeating_window_exact_witness :
    all_occurrences (envOff 0) dailyRepeater rShort (some (.dt 90000)) none 200 =
      ((dailyRepeater rShort ((envOff 0).naive (repeatLower 0
            ((some (DTArg.dt 90000)).map
              (fun d => as_datetime (envOff 0) d false))
            (rdelta rShort.end_ 0)))
          ((envOff 0).naive (repeatUpper (envOff 0) rShort
            ((none : Option DTArg).map
              (fun d => as_datetime (envOff 0) d true))))).take 200).map
        (fun s => ((envOff 0).aware s,
          some ((envOff 0).aware s + rdelta rShort.end_ 0), rShort)) :=
  (repeating_window_exact (envOff 0) dailyRepeater rShort 0
    (some (.dt 90000)) none 200
    (fun s => ∃ k : Nat, s = 0 + 86400 * (k : Int)) rfl (by decide)
    (fun a b x => mem_periodicBetween (by decide) 0 a b x)
    (by decide)).1

set_option maxRecDepth 40000 in
/-- Claim C5 (amended): `all_occurrences` always yields a finite list of at
most `max(limit, 1)` occurrences — the repeating branch stops after `limit`,
but the non-repeating branch ignores `limit` and may yield its single
occurrence even when `limit = 0`; in particular for `limit ≥ 1` it yields at
most `limit`.  A record repeating DAILY with no `repeat_until` and no
`to_date` yields exactly 20 occurrences with `limit = 20` and exactly 200
(`REPEAT_MAX`) with the default limit. -/
theorem all_occurrences_limit_cap :
    (∀ (env : Env) (gr : OccRecord → Int → Int → List Int) (r : OccRecord)
      (fd td : Option DTArg) (limit : Nat),
      (all_occurrences env gr r fd td limit).length ≤ max limit 1) ∧
    (all_occurrences (envOff (86400 * 300)) dailyRepeater rDaily
      none none 20).length = 20 ∧
    (all_occurrences (envOff (86400 * 300)) dailyRepeater rDaily
      none none).length = 200 := by
  refine ⟨?_, by decide, by decide⟩
  intro env gr r fd td limit
  unfold all_occurrences
  cases hstart : r.start with
  | none => simp
  | some s0 =>
    dsimp only
    split
    · split
      · simp
      · simp
    · rw [List.length_map]
      exact le_trans (List.length_take_le _ _) (le_max_left _ _)

/-- Counterexample to C5 as stated: with `limit = 0` the non-repeating
record `rPlain` still yields its single occurrence, i.e. more than `limit`
occurrences. -/
theorem all_occurrences_limit_zero_counterexample :
    ¬ ((all_occurrences (envOff 0) dailyRepeater rPlain
        none none 0).length ≤ 0) := by
  decide

/-- Claim C7 (amended): `migrate_integer_repeat` rewrites each record's
repeat value by the exact mapping 0 → "RRULE:FREQ=YEARLY", 1 →
"RRULE:FREQ=MONTHLY", 2 → "RRULE:FREQ=WEEKLY", 3 → "RRULE:FREQ=DAILY" and
any other value to the empty string; it is NOT idempotent by value: a
second application maps every value — in particular every canonical rule
string produced by the first — to the empty string, so it is idempotent on
a record exactly when the first application already produced the empty
string.  Hence the migration must be applied exactly once. -/
theorem migrate_integer_repeat_spec :
    (∀ n : Int, migrate_integer_repeat (.int n) =
      .str (if n = 0 then "RRULE:FREQ=YEARLY"
        else if n = 1 then "RRULE:FREQ=MONTHLY"
        else if n = 2 then "RRULE:FREQ=WEEKLY"
        else if n = 3 then "RRULE:FREQ=DAILY"
        else "")) ∧
    (∀ s : String, migrate_integer_repeat (.str s) = .str "") ∧
    (∀ v : RVal, migrate_integer_repeat (migrate_integer_repeat v) = .str "") ∧
    (∀ v : RVal, (migrate_integer_repeat (migrate_integer_repeat v) =
        migrate_integer_repeat v ↔ migrate_integer_repeat v = .str "")) ∧
    (∀ qs : List RVal,
      migrate_integer_repeat_all (migrate_integer_repeat_all qs) =
        qs.map (fun _ => .str "")) := by
  have hstr : ∀ s : String, migrate_integer_repeat (.str s) = .str "" := by
    intro s
    simp [migrate_integer_repeat, rruleYEARLY, rruleMONTHLY, rruleWEEKLY,
      rruleDAILY]
  have htwice : ∀ v : RVal,
      migrate_integer_repeat (migrate_integer_repeat v) = .str "" := by
    intro v
    have : ∃ s, migrate_integer_repeat v = .str s := by
      cases v with
      | int n =>
        simp only [migrate_integer_repeat]
        split
        · exact ⟨_, rfl⟩
        · split
          · exact ⟨_, rfl⟩
          · split
            · exact ⟨_, rfl⟩
            · split
              · exact ⟨_, rfl⟩
              · exact ⟨_, rfl⟩
      | str s => exact ⟨_, hstr s⟩
    obtain ⟨s, hsv⟩ := this
    rw [hsv, hstr]
  refine ⟨?_, hstr, htwice, ?_, ?_⟩
  · intro n
    simp only [migrate_integer_repeat, rruleYEARLY, rruleMONTHLY,
      rruleWEEKLY, rruleDAILY, RVal.int.injEq]
    split_ifs <;> rfl
  · intro v
    rw [htwice v]
    constructor
    · intro h
      exact h.symm
    · intro h
      rw [h]
  · intro qs
    simp only [migrate_integer_repeat_all, List.map_map]
    exact List.map_congr_left (fun v _ => htwice v)

/-- Counterexample to C7 as stated: for the legacy value 0 the first
application yields "RRULE:FREQ=YEARLY" but a second application rewrites it
to the empty string, so the rewrite is not idempotent by value. -/
theorem migrate_integer_repeat_not_idempotent :
    migrate_integer_repeat (migrate_integer_repeat (.int 0)) ≠
      migrate_integer_repeat (.int 0) ∧
    migrate_integer_repeat (.int 0) = .str "RRULE:FREQ=YEARLY" ∧
    migrate_integer_repeat (migrate_integer_repeat (.int 0)) = .str "" := by
  refine ⟨?_, rfl, rfl⟩
  decide

/-- Claim C8: for a record with a zone-aware start and a WEEKLY repeat rule,
every occurrence emitted by `all_occurrences` has the same local wall-clock
time (naive reading modulo 86400 s) as the anchor start, across any
daylight-saving offset change, because the recurrence arithmetic happens on
naive wall-clock values (`default_naive` before the rule library, with
WEEKLY advancing by exactly 604800 s of wall-clock time) and the results
are re-zoned afterwards (`default_aware`).  `hrt` is the round trip
`default_naive ∘ default_aware = id` on naive values. -/
theorem weekly_wall_clock_stable (env : Env)
    (gr : OccRecord → Int → Int → List Int) (r : OccRecord) (s0 : Int)
    (fd td : Option DTArg) (limit : Nat) (st : Int) (en : Option Int)
    (p : OccRecord)
    (hrt : ∀ t, env.naive (env.aware t) = t)
    (hs : r.start = some s0) (hrep : r.repeat_ ≠ "")
    (hgr : ∀ a b, gr r a b = periodicBetween (env.naive s0) 604800 a b)
    (hmem : (st, en, p) ∈ all_occurrences env gr r fd td limit) :
    env.naive st % 86400 = env.naive s0 % 86400 := by
  simp only [all_occurrences, hs] at hmem
  rw [if_neg hrep] at hmem
  rw [List.mem_map] at hmem
  obtain ⟨s, hsmem, heq⟩ := hmem
  have hsmem' : s ∈ gr r _ _ := List.take_subset _ _ hsmem
  rw [hgr] at hsmem'
  obtain ⟨⟨k, hk⟩, -, -⟩ := (mem_periodicBetween (by decide) _ _ _ s).mp hsmem'
  simp only [Prod.mk.injEq] at heq
  obtain ⟨hst, -, -⟩ := heq
  rw [← hst, hrt, hk]
  have h7 : (604800 : Int) * k = 86400 * (7 * k) := by ring
  rw [h7, Int.add_mul_emod_self_left]

/-- Witness for C8: under the "fall back" timezone `envDST` (offset +3600
before instant 1209600, 0 after), the third weekly occurrence of `rWeekly`
(instant 1245600, after the transition) still reads 10:00 local wall-clock
time, like the anchor. -/
theorem weekly_wall_clock_stable_witness :
    envDST.naive 1245600 % 86400 = envDST.naive 32400 % 86400 :=
  weekly_wall_clock_stable envDST weeklyRepeaterDST rWeekly 32400
    none (some (.dt 2000000)) 200 1245600 (some 1245600) rWeekly
    (by
      intro t
      simp only [envDST]
      split_ifs with h1 h2 h3 <;> omega)
    rfl (by decide)
    (fun a b => by rfl)
    (by decide)

theorem selectMin_cons_of_le {α : Type} (g : MergeGroup α)
    (gs : List (MergeGroup α)) (hle : ∀ g' ∈ gs, g.1.1 ≤ g'.1.1) :
    selectMin (g :: gs) = some ([], g, gs) := by
  cases hsel2 : selectMin gs with
  | none => simp [selectMin, hsel2]
  | some z =>
    obtain ⟨A', m', B'⟩ := z
    have hm'mem : m' ∈ gs := by
      rw [selectMin_decomp hsel2]
      exact List.mem_append_right _ (List.mem_cons_self _ _)
    have hm' := hle m' hm'mem
    simp only [selectMin, hsel2]
    rw [if_neg (not_lt.mpr hm')]

/-- Claim C10: when two or more live inputs have buffered heads with equal
start values, the head of the input seeded earlier (appearing earlier in
the `generators` argument) is yielded first, because head selection
replaces the current best only on strict less-than; the merge output is
therefore deterministic for a given input order.  Concretely: if the first
two generators both lead with start `s` and every later generator's head
start is at least `s`, the merged output starts with the first generator's
head. -/
theorem merge_tie_earlier_input_first {α : Type} (s : Int) (x y : α)
    (as bs : List (Int × α)) (gs : List (List (Int × α)))
    (limit : Option Nat)
    (hgs : ∀ h t, (h :: t) ∈ gs → s ≤ h.1) (hl : limit ≠ some 0) :
    (combine_occurrences (((s, x) :: as) :: ((s, y) :: bs) :: gs)
        limit).head? = some (s, x) := by
  unfold combine_occurrences
  have hseed : seedGroups (((s, x) :: as) :: ((s, y) :: bs) :: gs) =
      ((s, x), as) :: ((s, y), bs) :: seedGroups gs := rfl
  rw [hseed]
  have htail : ∀ g ∈ (((s, y), bs) : MergeGroup α) :: seedGroups gs,
      s ≤ g.1.1 := by
    intro g hg
    rcases List.mem_cons.mp hg with rfl | hg
    · exact le_refl s
    · simp only [seedGroups, List.mem_filterMap] at hg
      obtain ⟨l, hl', hfg⟩ := hg
      cases l with
      | nil => simp at hfg
      | cons h t =>
        obtain rfl := Option.some.inj hfg
        exact hgs h t hl'
  have hsel : selectMin (((s, x), as) :: ((s, y), bs) :: seedGroups gs) =
      some ([], ((s, x), as), ((s, y), bs) :: seedGroups gs) :=
    selectMin_cons_of_le _ _ htail
  rw [combineFuel_head gsize_pos_of_cons hl hsel]

/-- Witness for C10: three generators with heads 5, 5 and 6; the tie on 5 is
won by the first generator. -/
theorem merge_tie_earlier_input_first_witness :
    (combine_occurrences
        [[((5 : Int), (0 : Nat))], [(5, 1)], [(6, 2)]] none).head? =
      some (5, 0) :=
  merge_tie_earlier_input_first 5 0 1 [] [] [[(6, 2)]] none
    (by
      intro h t hm
      rw [List.mem_singleton] at hm
      injection hm with h1 h2
      rw [h1]
      decide)
    (by simp)

/-- Claim C6: for a finite list of input sequences, each individually
sorted ascending by occurrence start, `combine_occurrences` yields a single
sequence globally sorted ascending by start whose elements are exactly the
merged multiset of all the inputs when `limit` is absent; with a limit it
yields exactly the first `min(limit, total)` elements of that merged output
(the limited merge is a prefix of the unlimited one).  Exhausted (empty)
inputs are dropped at seeding, and the merge state (`MergeGroup`) buffers
exactly one head element per still-live input. -/
theorem merge_sorted_perm_take {α : Type} (gens : List (List (Int × α)))
    (limit : Option Nat) (n : Nat)
    (hs : ∀ g ∈ gens, g.Pairwise (fun a b : Int × α => a.1 ≤ b.1)) :
    (combine_occurrences gens none).Perm gens.flatten ∧
    (combine_occurrences gens limit).Pairwise
      (fun a b : Int × α => a.1 ≤ b.1) ∧
    combine_occurrences gens (some n) =
      (combine_occurrences gens none).take n ∧
    (combine_occurrences gens (some n)).length = min n gens.flatten.length := by
  have hseedP : ∀ g ∈ seedGroups gens,
      (g.1 :: g.2).Pairwise (fun a b : Int × α => a.1 ≤ b.1) := by
    intro g hg
    simp only [seedGroups, List.mem_filterMap] at hg
    obtain ⟨l, hl', hfg⟩ := hg
    cases l with
    | nil => simp at hfg
    | cons h t =>
      obtain rfl := Option.some.inj hfg
      exact hs _ hl'
  have hperm : (combine_occurrences gens none).Perm gens.flatten := by
    have h := combineFuel_perm (gsize (seedGroups gens)) (seedGroups gens)
      (le_refl _)
    rwa [flatten_seedGroups] at h
  have htake : combine_occurrences gens (some n) =
      (combine_occurrences gens none).take n := combineFuel_take _ _ _
  refine ⟨hperm, ?_, htake, ?_⟩
  · exact combineFuel_pairwise _ _ _ (le_refl _) hseedP
  · rw [htake, List.length_take, hperm.length_eq]

/-- Witness for C6: merging the sorted generators `[(1,0),(3,1)]` and
`[(2,2),(4,3)]` with limit 3 produces the sorted 3-prefix of the merged
contents. -/
theorem merge_sorted_perm_take_witness :
    (combine_occurrences [[((1 : Int), (0 : Nat)), (3, 1)], [(2, 2), (4, 3)]]
        none).Perm [(1, 0), (3, 1), (2, 2), (4, 3)] ∧
    (combine_occurrences [[((1 : Int), (0 : Nat)), (3, 1)], [(2, 2), (4, 3)]]
        (some 3)).Pairwise (fun a b : Int × Nat => a.1 ≤ b.1) ∧
    combine_occurrences [[((1 : Int), (0 : Nat)), (3, 1)], [(2, 2), (4, 3)]]
        (some 3) =
      (combine_occurrences [[((1 : Int), (0 : Nat)), (3, 1)],
          [(2, 2), (4, 3)]] none).take 3 ∧
    (combine_occurrences [[((1 : Int), (0 : Nat)), (3, 1)], [(2, 2), (4, 3)]]
        (some 3)).length =
      min 3 ([[((1 : Int), (0 : Nat)), (3, 1)], [(2, 2), (4, 3)]].flatten).length := by
  have h := merge_sorted_perm_take
    [[((1 : Int), (0 : Nat)), (3, 1)], [(2, 2), (4, 3)]] (some 3) 3
    (by decide)
  exact ⟨h.1, h.2.1, h.2.2.1, h.2.2.2⟩

theorem mem_filter_from {env : Env} {qs : List OccRecord} {r : OccRecord}
    {f : DTArg} :
    r ∈ filter_from env qs f ↔ r ∈ qs ∧
      ((∃ e, r.end_ = some e ∧ as_datetime env f false ≤ e) ∨
       (∃ s, r.start = some s ∧ as_datetime env f false ≤ s) ∨
       (r.repeat_ ≠ "" ∧ (r.repeat_until = none ∨
         ∃ ru, r.repeat_until = some ru ∧
           Int.fdiv (env.naive (as_datetime env f false)) 86400 ≤ ru))) := by
  unfold filter_from
  rw [List.mem_filter]
  refine and_congr_right (fun _ => ?_)
  simp only [Bool.or_eq_true, Bool.and_eq_true, decide_eq_true_eq]
  cases r.end_ <;> cases r.start <;> cases r.repeat_until <;>
    simp [or_assoc]

theorem mem_startLte_filter {qs : List OccRecord}
    {r : OccRecord} {v : Int} :
    r ∈ qs.filter (fun r => startLteB r v) ↔
      r ∈ qs ∧ ∃ s, r.start = some s ∧ s ≤ v := by
  rw [List.mem_filter]
  refine and_congr_right (fun _ => ?_)
  simp only [startLteB]
  cases r.start <;> simp

/-- Claim C1 (amended): with tz support disabled and a repeater that only
returns rule starts within its inclusive bounds and not before the anchor
start, the approximate phase of `for_period` (`exact=False`) never excludes
a record whose `all_occurrences(from_date, to_date)` is non-empty,
PROVIDED that when the record repeats with `repeat_until` set,
`repeat_until ≥ date(from_date)` (hypothesis `hprov`).  Without the proviso
the claimed guarantee fails: a repeating record whose final occurrence
starts before `from_date`'s day but ends at or after `from_date` is wrongly
excluded (see the counterexample). -/
theorem for_period_approx_retains_amended (mf : Int)
    (gr : OccRecord → Int → Int → List Int) (qs : List OccRecord)
    (r : OccRecord) (s0 : Int) (fd td : Option DTArg)
    (hs : r.start = some s0)
    (hgr : ∀ a b x, x ∈ gr r a b → a ≤ x ∧ x ≤ b ∧ s0 ≤ x)
    (hmem : r ∈ qs)
    (hocc : all_occurrences (envOff mf) gr r fd td ≠ [])
    (hprov : ∀ f, fd = some f → (r.repeat_ = "" ∨ r.repeat_until = none ∨
      ∃ ru, r.repeat_until = some ru ∧
        Int.fdiv (as_datetime (envOff mf) f false) 86400 ≤ ru)) :
    r ∈ for_period (envOff mf) gr qs fd td false := by
  -- the two facts the queryset filters need
  have hkey : (∀ t, td = some t → s0 ≤ as_datetime (envOff mf) t true) ∧
      (∀ f, fd = some f →
        ((∃ e, r.end_ = some e ∧ as_datetime (envOff mf) f false ≤ e) ∨
         (∃ s, r.start = some s ∧ as_datetime (envOff mf) f false ≤ s) ∨
         (r.repeat_ ≠ "" ∧ (r.repeat_until = none ∨
           ∃ ru, r.repeat_until = some ru ∧
             Int.fdiv ((envOff mf).naive
               (as_datetime (envOff mf) f false)) 86400 ≤ ru)))) := by
    by_cases hrep : r.repeat_ = ""
    · -- non-repeating: the emission condition is exactly the filters
      have h1 := (non_repeating_single_occurrence (envOff mf) gr r s0 fd td
        REPEAT_MAX hs hrep).1
      rw [h1] at hocc
      split at hocc
      swap
      · exact absurd rfl hocc
      rename_i hcond
      rw [Bool.and_eq_true] at hcond
      obtain ⟨hcf, hct⟩ := hcond
      constructor
      · intro t htd
        rw [htd] at hct
        simpa using hct
      · intro f hfd
        rw [hfd] at hcf
        simp only [Bool.or_eq_true, decide_eq_true_eq] at hcf
        rcases hcf with hcf | hcf
        · exact Or.inr (Or.inl ⟨s0, hs, hcf⟩)
        · cases hend : r.end_ with
          | none => rw [hend] at hcf; simp at hcf
          | some e =>
            rw [hend] at hcf
            simp only [decide_eq_true_eq] at hcf
            exact Or.inl ⟨e, rfl, hcf⟩
    · -- repeating: extract an in-window rule start
      have hx : ∃ x, x ∈ gr r
          ((envOff mf).naive (repeatLower s0
            (fd.map (fun d => as_datetime (envOff mf) d false))
            (rdelta r.end_ s0)))
          ((envOff mf).naive (repeatUpper (envOff mf) r
            (td.map (fun d => as_datetime (envOff mf) d true)))) := by
        simp only [all_occurrences, hs] at hocc
        rw [if_neg hrep] at hocc
        cases hL : gr r
            ((envOff mf).naive (repeatLower s0
              (fd.map (fun d => as_datetime (envOff mf) d false))
              (rdelta r.end_ s0)))
            ((envOff mf).naive (repeatUpper (envOff mf) r
              (td.map (fun d => as_datetime (envOff mf) d true)))) with
        | nil => rw [hL] at hocc; simp at hocc
        | cons a l => exact ⟨a, List.mem_cons_self _ _⟩
      obtain ⟨x, hxmem⟩ := hx
      obtain ⟨hlo, hhi, hsx⟩ := hgr _ _ x hxmem
      constructor
      · intro t htd
        subst htd
        have hup : repeatUpper (envOff mf) r
            (some (as_datetime (envOff mf) t true)) ≤
              as_datetime (envOff mf) t true := by
          simp only [repeatUpper]
          cases hru : r.repeat_until with
          | none => simp
          | some ru =>
            dsimp only
            split
            · rename_i hlt
              exact le_of_lt hlt
            · exact le_refl _
        have hhi' : x ≤ repeatUpper (envOff mf) r
            (some (as_datetime (envOff mf) t true)) := hhi
        omega
      · intro f hfd
        refine Or.inr (Or.inr ⟨hrep, ?_⟩)
        rcases hprov f hfd with hp | hp | ⟨ru, hru, hple⟩
        · exact absurd hp hrep
        · exact Or.inl hp
        · exact Or.inr ⟨ru, hru, hple⟩
  obtain ⟨hct, hcf⟩ := hkey
  unfold for_period
  cases td with
  | none =>
    dsimp only
    cases fd with
    | none => exact hmem
    | some f => exact mem_filter_from.mpr ⟨hmem, hcf f rfl⟩
  | some t =>
    dsimp only
    have hmem1 : r ∈ qs.filter
        (fun r => startLteB r (as_datetime (envOff mf) t true)) :=
      mem_startLte_filter.mpr ⟨hmem, s0, hs, hct t rfl⟩
    cases fd with
    | none => exact hmem1
    | some f => exact mem_filter_from.mpr ⟨hmem1, hcf f rfl⟩

/-- Counterexample to C1 as stated: `rStraddle`'s final occurrence (start
day 9 10:00, end day 10 09:00) is still in progress at the window start day
10 05:00 — `all_occurrences` yields it — yet the approximate phase drops
the record: `end` (day 1 09:00) and `start` (day 0 10:00) are before
`from_date` and `repeat_until` (day 9) is before `from_date`'s day 10, so
the retained predicate is false.  A false negative. -/
theorem for_period_approx_false_negative :
    all_occurrences (envOff 0) dailyRepeater rStraddle
        (some (.dt 882000)) none ≠ [] ∧
    for_period (envOff 0) dailyRepeater [rStraddle]
        (some (.dt 882000)) none false = [] := by
  constructor
  · decide
  · decide

/-- Witness for C1 (amended): the non-repeating record `rPlain` with an
occurrence after `from_date = 50` is retained by the approximate phase. -/
theorem for_period_approx_retains_amended_witness :
    rPlain ∈ for_period (envOff 0) dailyRepeater [rPlain]
      (some (.dt 50)) none false :=
  for_period_approx_retains_amended 0 dailyRepeater [rPlain] rPlain 100
    (some (.dt 50)) none rfl
    (fun a b x hx => by
      obtain ⟨⟨k, hk⟩, h1, h2⟩ :=
        (mem_periodicBetween (by decide) 100 a b x).mp hx
      refine ⟨h1, h2, ?_⟩
      have hnn : (0 : Int) ≤ 86400 * k := by positivity
      omega)
    (List.mem_cons_self _ _)
    (by decide)
    (fun f _ => Or.inl rfl)

/-- Claim C2 (amended): with `from_date` given, `for_period` with
`exact=True` returns precisely the records retained by the approximate
phase that additionally have at least one in-window occurrence; in
particular every returned record has a non-empty
`all_occurrences(from_date, to_date)`.  The converse inclusion of the
original claim fails: a record with an in-window occurrence that the
approximate phase wrongly dropped is missing from the exact result (see the
counterexample). -/
theorem for_period_exact_amended (env : Env)
    (gr : OccRecord → Int → Int → List Int) (qs : List OccRecord)
    (f : DTArg) (td : Option DTArg) :
    (for_period env gr qs (some f) td true =
      (for_period env gr qs (some f) td false).filter
        (fun r => !(all_occurrences env gr r (some f)
          (td.map (fun t => DTArg.dt (as_datetime env t true)))).isEmpty)) ∧
    ∀ r ∈ for_period env gr qs (some f) td true,
      all_occurrences env gr r (some f)
        (td.map (fun t => DTArg.dt (as_datetime env t true))) ≠ [] := by
  have h1 : for_period env gr qs (some f) td true =
      (for_period env gr qs (some f) td false).filter
        (fun r => !(all_occurrences env gr r (some f)
          (td.map (fun t => DTArg.dt (as_datetime env t true)))).isEmpty) := by
    cases td <;> rfl
  refine ⟨h1, ?_⟩
  intro r hr
  rw [h1, List.mem_filter] at hr
  have h2 := hr.2
  simp only [Bool.not_eq_true'] at h2
  intro hnil
  rw [hnil] at h2
  simp at h2

/-- Counterexample to C2 as stated: `rStraddle` has an in-window occurrence
(`all_occurrences` non-empty for the window from day 10 05:00) but
`for_period` with `exact=True` misses it, because the record was already
dropped by the approximate phase before the exact re-validation ran. -/
theorem for_period_exact_false_negative :
    for_period (envOff 0) dailyRepeater [rStraddle]
        (some (.dt 882000)) none true = [] ∧
    all_occurrences (envOff 0) dailyRepeater rStraddle
        (some (.dt 882000)) none ≠ [] := by
  constructor
  · decide
  · decide

/-- Witness for C2 (amended): `rPlain` is in the exact result for the
window from t = 50, and accordingly has a non-empty expansion there. -/
theorem for_period_exact_amended_witness :
    all_occurrences (envOff 0) dailyRepeater rPlain (some (.dt 50))
        none ≠ [] :=
  (for_period_exact_amended (envOff 0) dailyRepeater [rPlain]
    (.dt 50) none).2 rPlain (by decide)
